import Mathlib

set_option maxHeartbeats 1000000

/-
  Shallow embedding of the covariance-matrix pipeline of make_Cmatrix.py
  (and the chi-square driver chisquare_test.py).

  Matrices are dense row-major lists of rows of rationals; rational
  arithmetic stands in for IEEE doubles (the claims under study are exact
  identities or control-flow properties, not rounding statements).
  Fallible operations return Option; the Python code signals failure by
  returning the sentinel 0 (subMatrix2) or by an exception raised inside
  numpy (symLoad on a malformed length), and both are modelled as none.
  External inputs (unit vectors from the coordinate files, the CAMB power
  spectrum, healpy pixel-window and Gaussian-beam tables) are parameters.
-/

abbrev Mat : Type := List (List ℚ)

/-- Entry access with the usual 0 default outside bounds, matching dense
row-major storage of a numpy 2d array. -/
def entry (M : Mat) (i j : ℕ) : ℚ := (M.getD i []).getD j 0

/-- Dense n by n matrix built from an entry function (row-major). -/
def mkMat (n : ℕ) (f : ℕ → ℕ → ℚ) : Mat :=
  (List.range n).map fun i => (List.range n).map fun j => f i j

/-- The matrix has rows of length equal to its row count. -/
def SquareMat (M : Mat) : Prop := ∀ row ∈ M, row.length = M.length

/-- Entrywise symmetry inside the bounds. -/
def SymmMat (M : Mat) : Prop :=
  ∀ i < M.length, ∀ j < M.length, entry M i j = entry M j i

instance decSquareMat (M : Mat) : Decidable (SquareMat M) :=
  inferInstanceAs (Decidable (∀ row ∈ M, row.length = M.length))

instance decSymmMat (M : Mat) : Decidable (SymmMat M) :=
  inferInstanceAs (Decidable (∀ i < M.length, ∀ j < M.length, entry M i j = entry M j i))

/-- The symmetrisation pattern `array + array.T - np.diag(np.diag(array))`
used at make_Cmatrix.py line 67 (symLoad) and line 217 (makeCmatrix). -/
def symmetrize (A : Mat) : Mat :=
  mkMat A.length fun i j => entry A i j + entry A j i - (if i = j then entry A i i else 0)

/-- Position of upper-triangle cell (i, j), i le j, in the row-major flat
sequence produced by np.triu_indices on an n by n array: the rows before
row i contribute n - k entries each. -/
def triuOffset (n i : ℕ) : ℕ := ((List.range i).map fun k => n - k).sum

def triuPos (n i j : ℕ) : ℕ := triuOffset n i + (j - i)

/-- make_Cmatrix.py lines 43-52: symSave flattens the upper triangle
(row-major, diagonal included) via saveMe[np.triu_indices_from(saveMe)].
The np.save file round trip is identity and is elided. -/
def symSave (M : Mat) : List ℚ :=
  (List.range M.length).flatMap fun i =>
    (List.range (M.length - i)).map fun k => entry M i (i + k)

/-- make_Cmatrix.py lines 54-67: symLoad recovers n from the flat length
(the float computation n = -1/2 + sqrt(1/4 + 2 size) yields an exact
non-negative integer precisely when size = n(n+1)/2; otherwise numpy
raises when the float n is used as a shape/assignment size, modelled as
none), fills the upper triangle of an n by n zero array, and returns
array + array.T - np.diag(np.diag(array)). -/
def symLoad (v : List ℚ) : Option Mat :=
  ((List.range (v.length + 1)).find? (fun n => n * (n + 1) == 2 * v.length)).map fun n =>
    symmetrize (mkMat n fun i j => if i ≤ j then v.getD (triuPos n i j) 0 else 0)

/-- Indices where the mask is active: np.where(mask)[0] on an indicator
array (nonzero modelled as true). -/
def activeIndices (mask : List Bool) : List ℕ :=
  (List.range mask.length).filter fun i => mask.getD i false

/-- make_Cmatrix.py line 288: the list comprehension
[bigI for bigI in range(bigMaskVec.size) for subI in range(maskVec.size)
  if maskVec[subI] == bigMaskVec[bigI]] . -/
def subVecOf (maskVec bigMaskVec : List ℕ) : List ℕ :=
  (List.range bigMaskVec.length).flatMap fun bigI =>
    ((List.range maskVec.length).filter fun subI =>
      maskVec.getD subI 0 == bigMaskVec.getD bigI 0).map fun _ => bigI

/-- make_Cmatrix.py lines 265-293: subMatrix2.  The guard loop (lines
284-287) returns the sentinel 0 -- not a matrix -- when some active pixel
of mask is not active in bigMask; modelled as none.  On success the code
evaluates cMatrix[np.meshgrid(subVec, subVec)]; with the default xy
indexing of np.meshgrid this selects out[a][b] = cMatrix[subVec[b]][subVec[a]]
(the transposed block; the source comments that the transpose is not
needed for symmetric input). -/
def subMatrix2 (mask bigMask : List Bool) (cMatrix : Mat) : Option Mat :=
  let maskVec := activeIndices mask
  let bigMaskVec := activeIndices bigMask
  if maskVec.all (fun p => bigMaskVec.contains p) then
    let subVec := subVecOf maskVec bigMaskVec
    some (mkMat subVec.length fun a b =>
      entry cMatrix (subVec.getD b 0) (subVec.getD a 0))
  else none

/-- The superset positions idx selected by subMatrix2 for a mask pair:
position b of subIdx is the index, within the ordering of the active
pixels of bigMask, of the b-th active pixel of mask. -/
def subIdx (mask bigMask : List Bool) : List ℕ :=
  subVecOf (activeIndices mask) (activeIndices bigMask)

/-- Column sums: np.sum(cMatrix, axis=0) at make_Cmatrix.py line 233. -/
def colSum (M : Mat) (j : ℕ) : ℚ := ∑ i ∈ Finset.range M.length, entry M i j

/-- Row sums: np.sum(cMatrix, axis=1) at make_Cmatrix.py line 234. -/
def rowSum (M : Mat) (i : ℕ) : ℚ := ∑ j ∈ Finset.range M.length, entry M i j

/-- Grand total: np.sum(cMatrix) at make_Cmatrix.py line 235. -/
def totSum (M : Mat) : ℚ :=
  ∑ i ∈ Finset.range M.length, ∑ j ∈ Finset.range M.length, entry M i j

/-- make_Cmatrix.py lines 221-240: cMatCorrect.  Broadcasting makes
cMatrix - c1/size subtract the column sum c1[j] along each row, while
c2mat[i][j] = c2[i] subtracts the row sum; c3/size**2 adds the grand
total term. -/
def cMatCorrect (cMatrix : Mat) : Mat :=
  let size := cMatrix.length
  mkMat size fun i j =>
    entry cMatrix i j - colSum cMatrix j / size - rowSum cMatrix i / size
      + totSum cMatrix / (size : ℚ) ^ 2

/-- numpy.polynomial.legendre.legval (Clenshaw recurrence), specialised to
a scalar argument.  For a coefficient list c of length at least 3 the
loop runs i = 3 .. len(c), reading c[-i] and updating
  nd = nd - 1; c0 = c[-i] - c1*(nd-1)/nd; c1 = tmp + c1*x*(2*nd-1)/nd,
which is a left fold over the reversed prefix c[0 .. len-3]. -/
def legval (x : ℚ) (c : List ℚ) : ℚ :=
  match c with
  | [] => 0
  | [a] => a
  | _ =>
    let m := c.length
    let step := fun (st : (ℚ × ℚ) × ℕ) (ck : ℚ) =>
      let nd := st.2 - 1
      ((ck - st.1.2 * ((nd : ℚ) - 1) / (nd : ℚ),
        st.1.1 + st.1.2 * x * (2 * (nd : ℚ) - 1) / (nd : ℚ)), nd)
    let res := ((c.take (m - 2)).reverse).foldl step ((c.getD (m - 2) 0, c.getD (m - 1) 0), m)
    res.1.1 + res.1.2 * x

/-- The exact rational value of the IEEE double np.pi. -/
def npPi : ℚ := 884279719003555 / 281474976710656

def dot3 (u v : ℚ × ℚ × ℚ) : ℚ := u.1 * v.1 + u.2.1 * v.2.1 + u.2.2 * v.2.2

/-- make_Cmatrix.py lines 178-186: upper half matrix of cosines of angular
separations; the diagonal is set to exactly 1.0 and the strict lower
triangle is left at its zero fill. -/
def cosThetaArray (vecSize : ℕ) (uv : ℕ → ℚ × ℚ × ℚ) : Mat :=
  mkMat vecSize fun row col =>
    if row = col then 1 else if row < col then dot3 (uv row) (uv col) else 0

/-- make_Cmatrix.py lines 190-201: the pixWin branch reassigns lmax = 250,
then the beamSmooth branch reassigns lmax = 250 again; the caller value
survives only when both flags are false. -/
def effLmax (beamSmooth pixWin : Bool) (lmax : ℕ) : ℕ :=
  if beamSmooth then 250 else if pixWin then 250 else lmax

/-- make_Cmatrix.py lines 190-207: per-multipole prefactor
fac_l * B_l^2 * W_l^2 * C_l[:lmax+1], where fac_l = (2 l + 1)/(4 pi),
C_l is zeroed below highpass (line 204) and optionally scaled to
micro-Kelvin squared (line 206).  Wpix models hp.pixwin(64) and
gaussBeam models hp.gauss_beam at a given lmax; with pixWin (resp.
beamSmooth) false the corresponding window is the scalar 1.0. -/
def preFacL (C_l : List ℚ) (highpass : ℕ) (beamSmooth pixWin : Bool) (lmax : ℕ)
    (useMicro : Bool) (Wpix : List ℚ) (gaussBeam : ℕ → List ℚ) : List ℚ :=
  let W : ℕ → ℚ := if pixWin then fun l => Wpix.getD l 0 else fun _ => 1
  let B : ℕ → ℚ := if beamSmooth then fun l => (gaussBeam 250).getD l 0 else fun _ => 1
  let Chp : ℕ → ℚ := fun l => if l < highpass then 0 else C_l.getD l 0
  let Cm : ℕ → ℚ := fun l => if useMicro then Chp l * 10 ^ 12 else Chp l
  (List.range (effLmax beamSmooth pixWin lmax + 1)).map fun (l : ℕ) =>
    (2 * (l : ℚ) + 1) / (4 * npPi) * (B l) ^ 2 * (W l) ^ 2 * Cm l

/-- make_Cmatrix.py lines 126-219: makeCmatrix with the external inputs
made explicit: vecSize and uv are the count and unit vectors of the
masked pixels (lines 153-174), C_l the power spectrum (line 156), Wpix
and gaussBeam the healpy window tables.  Lines 210-216 fill only the
upper triangle (column from row upward) with the Legendre series value
at the pairwise cosine; line 217 mirrors it with
covArray + covArray.T - np.diag(np.diag(covArray)). -/
def makeCmatrix (vecSize : ℕ) (uv : ℕ → ℚ × ℚ × ℚ) (C_l : List ℚ) (highpass : ℕ)
    (beamSmooth pixWin : Bool) (lmax : ℕ) (useMicro : Bool)
    (Wpix : List ℚ) (gaussBeam : ℕ → List ℚ) : Mat :=
  let cosT := cosThetaArray vecSize uv
  let preFac := preFacL C_l highpass beamSmooth pixWin lmax useMicro Wpix gaussBeam
  let covU := mkMat vecSize fun row col =>
    if row ≤ col then legval (entry cosT row col) preFac else 0
  symmetrize covU

/-- np.dot for 2d arrays: (A.rows) by (B.cols), contracting over the inner
dimension. -/
def matMul (A B : Mat) : Mat :=
  (List.range A.length).map fun i =>
    (List.range (B.headD []).length).map fun j =>
      ∑ k ∈ Finset.range B.length, entry A i k * entry B k j

def transposeM (M : Mat) : Mat :=
  (List.range (M.headD []).length).map fun i =>
    (List.range M.length).map fun j => entry M j i

/-- make_Cmatrix.py lines 295-310: RDInvert builds
np.diag(eigVals**-1) and returns eigVecs . diagInv . eigVecs.T.  There is
no guard on the eigenvalues: numpy evaluates 0.0**-1 as inf with a
RuntimeWarning and the function still returns a matrix; the rational
embedding renders that unchecked reciprocal with the GroupWithZero
convention 0⁻¹ = 0 (in both semantics a matrix is returned, no error is
raised). -/
def RDInvert (eigVals : List ℚ) (eigVecs : Mat) : Mat :=
  let diagInv := mkMat eigVals.length fun i j => if i = j then (eigVals.getD i 0)⁻¹ else 0
  matMul (matMul eigVecs diagInv) (transposeM eigVecs)

/-- chisquare_test.py line 129: the chi-square statistic of one trial,
np.dot(Tvec, np.dot(invCMat, Tvec)). -/
def chiSq (Tvec : List ℚ) (invCMat : Mat) : ℚ :=
  ∑ i ∈ Finset.range Tvec.length,
    Tvec.getD i 0 * ∑ k ∈ Finset.range invCMat.length, entry invCMat i k * Tvec.getD k 0

/-! Basic access lemmas for the dense representation. -/

theorem length_mkMat (n : ℕ) (f : ℕ → ℕ → ℚ) : (mkMat n f).length = n := by
  unfold mkMat
  simp

theorem getD_map_range {α : Type} (m : ℕ) (g : ℕ → α) (k : ℕ) (d : α) (h : k < m) :
    ((List.range m).map g).getD k d = g k := by
  rw [List.getD_eq_getElem _ _ (by simpa using h)]
  simp

theorem row_mkMat (n : ℕ) (f : ℕ → ℕ → ℚ) (i : ℕ) (h : i < n) :
    (mkMat n f).getD i [] = (List.range n).map (f i) := by
  unfold mkMat
  exact getD_map_range n (fun i => (List.range n).map (f i)) i [] h

theorem entry_mkMat (n : ℕ) (f : ℕ → ℕ → ℚ) (i j : ℕ) (hi : i < n) (hj : j < n) :
    entry (mkMat n f) i j = f i j := by
  unfold entry
  rw [row_mkMat n f i hi, getD_map_range n (f i) j 0 hj]

theorem length_symmetrize (A : Mat) : (symmetrize A).length = A.length := by
  simp [symmetrize, length_mkMat]

theorem entry_symmetrize (A : Mat) (i j : ℕ) (hi : i < A.length) (hj : j < A.length) :
    entry (symmetrize A) i j =
      entry A i j + entry A j i - (if i = j then entry A i i else 0) := by
  unfold symmetrize
  rw [entry_mkMat A.length _ i j hi hj]

theorem mem_activeIndices (mask : List Bool) (i : ℕ) :
    i ∈ activeIndices mask ↔ mask.getD i false = true := by
  unfold activeIndices
  rw [List.mem_filter]
  constructor
  · rintro ⟨-, h⟩
    exact h
  · intro h
    refine ⟨List.mem_range.mpr ?_, h⟩
    by_contra hlt
    push_neg at hlt
    rw [List.getD_eq_default _ _ hlt] at h
    exact Bool.false_ne_true h

/-- Claim C1: whenever the subset mask activates a pixel that the superset
mask does not activate, subMatrix2 takes the guard branch of lines
284-287 and fails (the sentinel return 0, modelled as none); no matrix,
partial or otherwise, is produced. -/
theorem subMatrix2_missing_pixel_fails (mask bigMask : List Bool) (cMatrix : Mat) (i : ℕ)
    (hin : mask.getD i false = true) (hout : bigMask.getD i false = false) :
    subMatrix2 mask bigMask cMatrix = none := by
  have hmem : i ∈ activeIndices mask := (mem_activeIndices mask i).mpr hin
  have hnot : ((activeIndices bigMask).contains i) = false := by
    by_contra hc
    rw [Bool.not_eq_false] at hc
    have hm : i ∈ activeIndices bigMask := by
      rw [List.contains_eq_any_beq] at hc
      rcases List.any_eq_true.mp hc with ⟨x, hx, hbeq⟩
      rcases beq_iff_eq.mp hbeq
      exact hx
    rw [mem_activeIndices] at hm
    rw [hm] at hout
    exact absurd hout (by decide)
  have hall : ((activeIndices mask).all fun p => (activeIndices bigMask).contains p) = false :=
    List.all_eq_false.mpr ⟨i, hmem, by rw [hnot]; exact Bool.false_ne_true⟩
  unfold subMatrix2
  simp only [hall]
  rfl

/-- Witness for claim C1 at a concrete input: pixel 1 is active in the
subset mask but not in the superset mask. -/
theorem subMatrix2_missing_pixel_fails_witness :
    ([true, true].getD 1 false = true ∧ [true, false].getD 1 false = false) ∧
      subMatrix2 [true, true] [true, false] [[(1 : ℚ)]] = none :=
  ⟨⟨by decide, by decide⟩,
    subMatrix2_missing_pixel_fails [true, true] [true, false] [[(1 : ℚ)]] 1
      (by decide) (by decide)⟩

/-- Claim C3: when no integer n has n(n+1)/2 equal to the compact-form
length (the float N = (-1+sqrt(1+8L))/2 of line 63 is not an exact
non-negative integer), symLoad fails and returns no matrix. -/
theorem symLoad_malformed_length_fails (v : List ℚ)
    (h : ∀ n < v.length + 1, n * (n + 1) ≠ 2 * v.length) :
    symLoad v = none := by
  have hfind :
      (List.range (v.length + 1)).find? (fun n => n * (n + 1) == 2 * v.length) = none := by
    rw [List.find?_eq_none]
    intro x hx
    simpa using h x (List.mem_range.mp hx)
  unfold symLoad
  rw [hfind]
  rfl

/-- Witness for claim C3 at a concrete input: a compact form of length 2,
which is not a triangular number. -/
theorem symLoad_malformed_length_fails_witness :
    (∀ n < (2 : ℕ) + 1, n * (n + 1) ≠ 2 * 2) ∧ symLoad [(1 : ℚ), 1] = none :=
  ⟨by decide, symLoad_malformed_length_fails [(1 : ℚ), 1] (by decide)⟩

/-- Claim C6: cMatCorrect implements the Granett-Neyrinck-Szapudi mean
correction entrywise, and every row of the corrected matrix sums to zero
(exactly, in rational arithmetic, hence a fortiori within 1e-10; the
all-ones vector is a null vector of the output). -/
theorem cMatCorrect_formula_rowsum (M : Mat) (hN : 0 < M.length) :
    (∀ i < M.length, ∀ j < M.length,
        entry (cMatCorrect M) i j
          = entry M i j - rowSum M i / M.length - colSum M j / M.length
              + totSum M / (M.length : ℚ) ^ 2)
    ∧ ∀ i < M.length,
        ∑ j ∈ Finset.range M.length, entry (cMatCorrect M) i j = 0 := by
  have hent : ∀ i < M.length, ∀ j < M.length,
      entry (cMatCorrect M) i j
        = entry M i j - colSum M j / M.length - rowSum M i / M.length
            + totSum M / (M.length : ℚ) ^ 2 := by
    intro i hi j hj
    unfold cMatCorrect
    exact entry_mkMat M.length _ i j hi hj
  have hcast : ((M.length : ℚ)) ≠ 0 := Nat.cast_ne_zero.mpr (Nat.pos_iff_ne_zero.mp hN)
  constructor
  · intro i hi j hj
    rw [hent i hi j hj]
    ring
  · intro i hi
    rw [Finset.sum_congr rfl (fun j hj => hent i hi j (Finset.mem_range.mp hj))]
    have h1 : ∑ j ∈ Finset.range M.length, entry M i j = rowSum M i := rfl
    have h2 : ∑ j ∈ Finset.range M.length, colSum M j = totSum M := by
      unfold colSum totSum
      exact Finset.sum_comm
    simp only [Finset.sum_add_distrib, Finset.sum_sub_distrib, ← Finset.sum_div,
      Finset.sum_const, Finset.card_range, nsmul_eq_mul, h1, h2]
    field_simp
    ring

/-- Witness for claim C6 at a concrete 2 by 2 matrix. -/
theorem cMatCorrect_formula_rowsum_witness :
    0 < ([[(1 : ℚ), 2], [3, 4]] : Mat).length ∧
      ((∀ i < ([[(1 : ℚ), 2], [3, 4]] : Mat).length,
          ∀ j < ([[(1 : ℚ), 2], [3, 4]] : Mat).length,
          entry (cMatCorrect [[(1 : ℚ), 2], [3, 4]]) i j
            = entry [[(1 : ℚ), 2], [3, 4]] i j
                - rowSum [[(1 : ℚ), 2], [3, 4]] i / ([[(1 : ℚ), 2], [3, 4]] : Mat).length
                - colSum [[(1 : ℚ), 2], [3, 4]] j / ([[(1 : ℚ), 2], [3, 4]] : Mat).length
                + totSum [[(1 : ℚ), 2], [3, 4]] / (([[(1 : ℚ), 2], [3, 4]] : Mat).length : ℚ) ^ 2)
        ∧ ∀ i < ([[(1 : ℚ), 2], [3, 4]] : Mat).length,
            ∑ j ∈ Finset.range ([[(1 : ℚ), 2], [3, 4]] : Mat).length,
              entry (cMatCorrect [[(1 : ℚ), 2], [3, 4]]) i j = 0) :=
  ⟨by decide, cMatCorrect_formula_rowsum [[(1 : ℚ), 2], [3, 4]] (by decide)⟩

theorem makeCmatrix_eq_symmetrize (vecSize : ℕ) (uv : ℕ → ℚ × ℚ × ℚ) (C_l : List ℚ)
    (highpass : ℕ) (beamSmooth pixWin : Bool) (lmax : ℕ) (useMicro : Bool)
    (Wpix : List ℚ) (gaussBeam : ℕ → List ℚ) :
    makeCmatrix vecSize uv C_l highpass beamSmooth pixWin lmax useMicro Wpix gaussBeam
      = symmetrize (mkMat vecSize fun row col =>
          if row ≤ col then
            legval (entry (cosThetaArray vecSize uv) row col)
              (preFacL C_l highpass beamSmooth pixWin lmax useMicro Wpix gaussBeam)
          else 0) := rfl

/-- Claim C7: the covariance matrix returned by makeCmatrix is exactly
symmetric (the lower triangle is produced by the symmetric copy of line
217, so each mirror pair is the same value), and every diagonal entry is
the truncated Legendre series evaluated at cosine 1 (the diagonal of the
cosine array is set to exactly 1.0 at line 181). -/
theorem makeCmatrix_symmetric_diag (vecSize : ℕ) (uv : ℕ → ℚ × ℚ × ℚ) (C_l : List ℚ)
    (highpass : ℕ) (beamSmooth pixWin : Bool) (lmax : ℕ) (useMicro : Bool)
    (Wpix : List ℚ) (gaussBeam : ℕ → List ℚ) (i j : ℕ) (hi : i < vecSize) (hj : j < vecSize) :
    entry (makeCmatrix vecSize uv C_l highpass beamSmooth pixWin lmax useMicro Wpix gaussBeam) i j
      = entry (makeCmatrix vecSize uv C_l highpass beamSmooth pixWin lmax useMicro Wpix gaussBeam) j i
    ∧ entry (makeCmatrix vecSize uv C_l highpass beamSmooth pixWin lmax useMicro Wpix gaussBeam) i i
      = legval 1 (preFacL C_l highpass beamSmooth pixWin lmax useMicro Wpix gaussBeam) := by
  rw [makeCmatrix_eq_symmetrize]
  set pf := preFacL C_l highpass beamSmooth pixWin lmax useMicro Wpix gaussBeam with hpf
  set g : ℕ → ℕ → ℚ := fun row col =>
    if row ≤ col then legval (entry (cosThetaArray vecSize uv) row col) pf else 0 with hg
  have hlen : (mkMat vecSize g).length = vecSize := length_mkMat vecSize g
  have hent : ∀ a b, a < vecSize → b < vecSize →
      entry (symmetrize (mkMat vecSize g)) a b
        = g a b + g b a - (if a = b then g a a else 0) := by
    intro a b ha hb
    rw [entry_symmetrize (mkMat vecSize g) a b (by rw [hlen]; exact ha) (by rw [hlen]; exact hb),
      entry_mkMat vecSize g a b ha hb, entry_mkMat vecSize g b a hb ha,
      entry_mkMat vecSize g a a ha ha]
  constructor
  · rw [hent i j hi hj, hent j i hj hi]
    by_cases hij : i = j
    · rw [hij]
    · rw [if_neg hij, if_neg (Ne.symm hij)]
      ring
  · rw [hent i i hi hi]
    have hcos : entry (cosThetaArray vecSize uv) i i = 1 := by
      unfold cosThetaArray
      rw [entry_mkMat vecSize _ i i hi hi, if_pos rfl]
    have hgii : g i i = legval 1 pf := by
      rw [hg]
      simp only [le_refl, if_pos]
      rw [hcos]
    rw [if_pos rfl, hgii]
    ring

/-- Witness for claim C7 at a concrete configuration (two pixels with unit
vectors along x and y, spectrum with only the monopole). -/
theorem makeCmatrix_symmetric_diag_witness :
    ((0 : ℕ) < 2 ∧ (1 : ℕ) < 2) ∧
      (entry (makeCmatrix 2 (fun k => if k = 0 then (1, 0, 0) else (0, 1, 0)) [1] 0
          false false 2 false [] (fun _ => [])) 0 1
        = entry (makeCmatrix 2 (fun k => if k = 0 then (1, 0, 0) else (0, 1, 0)) [1] 0
          false false 2 false [] (fun _ => [])) 1 0
      ∧ entry (makeCmatrix 2 (fun k => if k = 0 then (1, 0, 0) else (0, 1, 0)) [1] 0
          false false 2 false [] (fun _ => [])) 0 0
        = legval 1 (preFacL [1] 0 false false 2 false [] (fun _ => []))) :=
  ⟨⟨by decide, by decide⟩,
    makeCmatrix_symmetric_diag 2 (fun k => if k = 0 then (1, 0, 0) else (0, 1, 0)) [1] 0
      false false 2 false [] (fun _ => []) 0 1 (by decide) (by decide)⟩

/-- Claim C8: when beam smoothing or the pixel window is active, the
series truncation used by makeCmatrix is the fixed value 250 regardless
of the caller-specified lmax (the two makeCmatrix calls with different
lmax values return the same matrix), and the call still succeeds,
returning a vecSize by vecSize matrix. -/
theorem makeCmatrix_lmax_override (beamSmooth pixWin : Bool)
    (hflag : (beamSmooth || pixWin) = true) (vecSize : ℕ) (uv : ℕ → ℚ × ℚ × ℚ)
    (C_l : List ℚ) (highpass : ℕ) (l₁ l₂ : ℕ) (useMicro : Bool)
    (Wpix : List ℚ) (gaussBeam : ℕ → List ℚ) :
    effLmax beamSmooth pixWin l₁ = 250 ∧
      makeCmatrix vecSize uv C_l highpass beamSmooth pixWin l₁ useMicro Wpix gaussBeam
        = makeCmatrix vecSize uv C_l highpass beamSmooth pixWin l₂ useMicro Wpix gaussBeam ∧
      (makeCmatrix vecSize uv C_l highpass beamSmooth pixWin l₁ useMicro Wpix gaussBeam).length
        = vecSize := by
  have heff : ∀ l, effLmax beamSmooth pixWin l = 250 := by
    intro l
    cases beamSmooth
    · cases pixWin
      · simp at hflag
      · simp [effLmax]
    · simp [effLmax]
  refine ⟨heff l₁, ?_, ?_⟩
  · rw [makeCmatrix_eq_symmetrize, makeCmatrix_eq_symmetrize]
    unfold preFacL
    rw [heff l₁, heff l₂]
  · rw [makeCmatrix_eq_symmetrize, length_symmetrize, length_mkMat]

/-- Witness for claim C8: beamSmooth active, two different caller lmax
values 5 and 7. -/
theorem makeCmatrix_lmax_override_witness :
    ((true : Bool) || false) = true ∧
      (effLmax true false 5 = 250 ∧
        makeCmatrix 1 (fun _ => (1, 0, 0)) [1] 0 true false 5 false [] (fun _ => [])
          = makeCmatrix 1 (fun _ => (1, 0, 0)) [1] 0 true false 7 false [] (fun _ => []) ∧
        (makeCmatrix 1 (fun _ => (1, 0, 0)) [1] 0 true false 5 false [] (fun _ => [])).length
          = 1) :=
  ⟨by decide,
    makeCmatrix_lmax_override true false (by decide) 1 (fun _ => (1, 0, 0)) [1] 0 5 7 false []
      (fun _ => [])⟩

theorem getD_range (n t : ℕ) (h : t < n) : (List.range n).getD t 0 = t := by
  rw [List.getD_eq_getElem _ _ (by simpa using h)]
  simp

theorem subVecOf_mem_lt (maskVec bigMaskVec : List ℕ) :
    ∀ t ∈ subVecOf maskVec bigMaskVec, t < bigMaskVec.length := by
  intro t ht
  unfold subVecOf at ht
  rw [List.mem_flatMap] at ht
  rcases ht with ⟨bigI, hbigI, hmem⟩
  rw [List.mem_map] at hmem
  rcases hmem with ⟨-, -, rfl⟩
  exact List.mem_range.mp hbigI

theorem subMatrix2_eq_some (mask bigMask : List Bool) (M : Mat)
    (hok : ∀ x ∈ activeIndices mask, x ∈ activeIndices bigMask) :
    subMatrix2 mask bigMask M
      = some (mkMat (subIdx mask bigMask).length fun a b =>
          entry M ((subIdx mask bigMask).getD b 0) ((subIdx mask bigMask).getD a 0)) := by
  have hall : ((activeIndices mask).all fun p => (activeIndices bigMask).contains p) = true := by
    rw [List.all_eq_true]
    intro x hx
    rw [List.contains_eq_any_beq, List.any_eq_true]
    exact ⟨x, hok x hx, beq_self_eq_true x⟩
  unfold subMatrix2 subIdx
  simp only [hall]
  rfl

/-- Claim C10: on any valid subset/superset pair, subMatrix2 returns the
transpose of the selected block -- entry (a, b) of the output is entry
(idx b, idx a) of the superset matrix, a consequence of the xy indexing
convention of np.meshgrid at line 291 -- and therefore agrees with the
intended row/column selection exactly when the superset matrix is
symmetric. -/
theorem subMatrix2_transposed_selection (mask bigMask : List Bool) (M : Mat)
    (hok : ∀ x ∈ activeIndices mask, x ∈ activeIndices bigMask) :
    ∃ S, subMatrix2 mask bigMask M = some S ∧
      (∀ a < (subIdx mask bigMask).length, ∀ b < (subIdx mask bigMask).length,
        entry S a b
          = entry M ((subIdx mask bigMask).getD b 0) ((subIdx mask bigMask).getD a 0)) ∧
      (SymmMat M → M.length = (activeIndices bigMask).length →
        ∀ a < (subIdx mask bigMask).length, ∀ b < (subIdx mask bigMask).length,
          entry S a b
            = entry M ((subIdx mask bigMask).getD a 0) ((subIdx mask bigMask).getD b 0)) := by
  refine ⟨_, subMatrix2_eq_some mask bigMask M hok, ?_, ?_⟩
  · intro a ha b hb
    exact entry_mkMat _ _ a b ha hb
  · intro hsymm hlen a ha b hb
    rw [entry_mkMat _ _ a b ha hb]
    have hmem : ∀ t, t < (subIdx mask bigMask).length → (subIdx mask bigMask).getD t 0 < M.length := by
      intro t ht
      rw [List.getD_eq_getElem _ _ ht, hlen]
      exact subVecOf_mem_lt _ _ _ (List.getElem_mem ht)
    exact hsymm _ (hmem b hb) _ (hmem a ha)

/-- Witness for claim C10: subset pixels {0, 1} of superset {0, 1, 2} over
a non-symmetric 3 by 3 matrix, exhibiting the transposed selection. -/
theorem subMatrix2_transposed_selection_witness :
    (∀ x ∈ activeIndices [true, true, false], x ∈ activeIndices [true, true, true]) ∧
      ∃ S, subMatrix2 [true, true, false] [true, true, true]
            [[(1 : ℚ), 2, 3], [4, 5, 6], [7, 8, 9]] = some S ∧
        (∀ a < (subIdx [true, true, false] [true, true, true]).length,
         ∀ b < (subIdx [true, true, false] [true, true, true]).length,
          entry S a b
            = entry [[(1 : ℚ), 2, 3], [4, 5, 6], [7, 8, 9]]
                ((subIdx [true, true, false] [true, true, true]).getD b 0)
                ((subIdx [true, true, false] [true, true, true]).getD a 0)) ∧
        (SymmMat [[(1 : ℚ), 2, 3], [4, 5, 6], [7, 8, 9]] →
          ([[(1 : ℚ), 2, 3], [4, 5, 6], [7, 8, 9]] : Mat).length
            = (activeIndices [true, true, true]).length →
          ∀ a < (subIdx [true, true, false] [true, true, true]).length,
          ∀ b < (subIdx [true, true, false] [true, true, true]).length,
            entry S a b
              = entry [[(1 : ℚ), 2, 3], [4, 5, 6], [7, 8, 9]]
                  ((subIdx [true, true, false] [true, true, true]).getD a 0)
                  ((subIdx [true, true, false] [true, true, true]).getD b 0)) :=
  ⟨by decide,
    subMatrix2_transposed_selection [true, true, false] [true, true, true]
      [[(1 : ℚ), 2, 3], [4, 5, 6], [7, 8, 9]] (by decide)⟩

theorem filter_range_singleton (p : ℕ → Bool) (len bigI : ℕ) (hbig : bigI < len)
    (hp : ∀ s < len, (p s = true ↔ s = bigI)) :
    (List.range len).filter p = [bigI] := by
  have hsplit : List.range len
      = List.range bigI ++ List.map (fun x => bigI + x) (List.range (len - bigI)) := by
    rw [← List.range_add]
    congr 1
    omega
  rw [hsplit, List.filter_append]
  have h1 : (List.range bigI).filter p = [] := by
    rw [List.filter_eq_nil_iff]
    intro s hs hps
    have hslt : s < bigI := List.mem_range.mp hs
    have := (hp s (by omega)).mp hps
    omega
  have hlen2 : len - bigI = (len - bigI - 1) + 1 := by omega
  rw [h1, hlen2, List.range_succ_eq_map, List.map_cons]
  have h2 : p (bigI + 0) = true := (hp bigI hbig).mpr (by omega)
  rw [List.filter_cons_of_pos h2]
  have h3 : (List.map (fun x => bigI + x) (List.map Nat.succ (List.range (len - bigI - 1)))).filter p
      = [] := by
    rw [List.filter_eq_nil_iff]
    intro s hs hps
    rw [List.map_map, List.mem_map] at hs
    rcases hs with ⟨x, hx, hxe⟩
    have hxlt : x < len - bigI - 1 := List.mem_range.mp hx
    have hse : bigI + (x + 1) = s := hxe
    have hslen : s < len := by omega
    have hsb : s = bigI := (hp s hslen).mp hps
    omega
  rw [h3]
  simp

theorem flatMap_eq_self_of_singletons {α : Type} (l : List α) (f : α → List α)
    (h : ∀ x ∈ l, f x = [x]) : l.flatMap f = l := by
  induction l with
  | nil => rfl
  | cons a t ih =>
      rw [List.flatMap_cons, h a (by simp), ih (fun x hx => h x (by simp [hx]))]
      rfl

theorem subVecOf_self (mv : List ℕ) (hnd : mv.Nodup) :
    subVecOf mv mv = List.range mv.length := by
  unfold subVecOf
  apply flatMap_eq_self_of_singletons
  intro bigI hbig
  have hbig' : bigI < mv.length := List.mem_range.mp hbig
  have hfil : ((List.range mv.length).filter fun subI =>
      mv.getD subI 0 == mv.getD bigI 0) = [bigI] := by
    apply filter_range_singleton _ mv.length bigI hbig'
    intro s hs
    constructor
    · intro hbeq
      have heq : mv.getD s 0 = mv.getD bigI 0 := beq_iff_eq.mp hbeq
      rw [List.getD_eq_getElem _ _ hs, List.getD_eq_getElem _ _ hbig'] at heq
      exact (List.Nodup.getElem_inj_iff hnd).mp heq
    · rintro rfl
      exact beq_self_eq_true _
  rw [hfil]
  rfl

theorem mkMat_eq_of_entries (M : Mat) (n : ℕ) (f : ℕ → ℕ → ℚ) (hsq : SquareMat M)
    (hn : M.length = n) (h : ∀ i < n, ∀ j < n, f i j = entry M i j) : mkMat n f = M := by
  have hlen : (mkMat n f).length = M.length := by rw [length_mkMat, hn]
  apply List.ext_get hlen
  intro a h₁ h₂
  simp only [List.get_eq_getElem]
  have ha : a < n := by rw [length_mkMat] at h₁; exact h₁
  have hrowa : (mkMat n f)[a] = (List.range n).map (f a) := by
    unfold mkMat
    simp
  rw [hrowa]
  have hMlen : (M[a]).length = n := by rw [hsq M[a] (List.getElem_mem h₂), hn]
  apply List.ext_get (by simp [hMlen])
  intro b hb₁ hb₂
  simp only [List.get_eq_getElem, List.getElem_map, List.getElem_range]
  have hbn : b < n := by simpa using hb₁
  rw [h a ha b hbn]
  unfold entry
  rw [List.getD_eq_getElem _ _ h₂, List.getD_eq_getElem _ _ (by rw [hMlen]; exact hbn)]

/-- Claim C5: extracting with the subset mask equal to the superset mask
returns the superset matrix unchanged, for any matrix of the shape built
for that mask (square, of the active-pixel count, and symmetric as
makeCmatrix guarantees); the embedding is pure, and the source selection
cMatrix[np.meshgrid(...)] is a fancy-indexing copy that reads but never
writes the superset matrix. -/
theorem subMatrix2_self_identity (mask : List Bool) (M : Mat)
    (hlen : M.length = (activeIndices mask).length) (hsq : SquareMat M) (hsymm : SymmMat M) :
    subMatrix2 mask mask M = some M := by
  rw [subMatrix2_eq_some mask mask M (fun x hx => hx)]
  have hnd : (activeIndices mask).Nodup := List.Nodup.filter _ (List.nodup_range _)
  have hsub : subIdx mask mask = List.range (activeIndices mask).length :=
    subVecOf_self (activeIndices mask) hnd
  rw [hsub]
  congr 1
  simp only [List.length_range]
  apply mkMat_eq_of_entries M _ _ hsq hlen
  intro a ha b hb
  rw [getD_range _ b hb, getD_range _ a ha]
  exact hsymm b (by omega) a (by omega)

/-- Witness for claim C5 at a concrete mask and symmetric matrix. -/
theorem subMatrix2_self_identity_witness :
    (([[(1 : ℚ), 2], [2, 5]] : Mat).length = (activeIndices [true, false, true]).length
        ∧ SquareMat [[(1 : ℚ), 2], [2, 5]] ∧ SymmMat [[(1 : ℚ), 2], [2, 5]]) ∧
      subMatrix2 [true, false, true] [true, false, true] [[(1 : ℚ), 2], [2, 5]]
        = some [[(1 : ℚ), 2], [2, 5]] :=
  ⟨⟨by decide, by decide, by decide⟩,
    subMatrix2_self_identity [true, false, true] [[(1 : ℚ), 2], [2, 5]]
      (by decide) (by decide) (by decide)⟩

theorem length_matMul (A B : Mat) : (matMul A B).length = A.length := by
  unfold matMul
  simp

theorem entry_matMul (A B : Mat) (i j : ℕ) (hi : i < A.length) (hj : j < (B.headD []).length) :
    entry (matMul A B) i j = ∑ k ∈ Finset.range B.length, entry A i k * entry B k j := by
  show ((matMul A B).getD i []).getD j 0 = _
  unfold matMul
  rw [getD_map_range _ _ i [] hi, getD_map_range _ _ j 0 hj]

theorem headD_map_range {α : Type} (m : ℕ) (g : ℕ → α) (d : α) (h : 0 < m) :
    ((List.range m).map g).headD d = g 0 := by
  cases m with
  | zero => omega
  | succ t =>
      rw [List.range_succ_eq_map]
      rfl

theorem length_transposeM (M : Mat) : (transposeM M).length = (M.headD []).length := by
  unfold transposeM
  simp

theorem entry_transposeM (M : Mat) (i j : ℕ) (hi : i < (M.headD []).length)
    (hj : j < M.length) : entry (transposeM M) i j = entry M j i := by
  show ((transposeM M).getD i []).getD j 0 = _
  unfold transposeM
  rw [getD_map_range _ _ i [] hi, getD_map_range _ _ j 0 hj]

theorem headD_length_of_square (M : Mat) (hsq : SquareMat M) (h : 0 < M.length) :
    (M.headD []).length = M.length := by
  cases M with
  | nil => simp at h
  | cons r t => exact hsq r (by simp)

/-- Counterexample to claim C4: at the eigenvalue array [0], which
contains a zero eigenvalue, RDInvert does not fail and returns a matrix.
The source has no eigenvalue guard: numpy evaluates eigVals**-1 at 0.0 as
inf with only a RuntimeWarning, and the function returns normally; the
rational embedding renders the unchecked reciprocal with 0⁻¹ = 0, so the
returned matrix here is [[0]].  Either way a matrix is produced, never a
SingularMatrixError. -/
theorem RDInvert_zero_eigenvalue_returns :
    ((0 : ℚ) ∈ [(0 : ℚ)]) ∧ RDInvert [(0 : ℚ)] [[(1 : ℚ)]] = [[(0 : ℚ)]] := by
  constructor
  · simp
  · simp [RDInvert, matMul, transposeM, mkMat, entry, List.range_succ]

/-- Claim C4 (amended): RDInvert performs no eigenvalue check and never
fails; for every eigenvalue array it returns the matrix
V . diag(eigVals elementwise reciprocal) . V transpose -- in particular
when all eigenvalues are non-zero this is V . Lambda inverse . V
transpose with Lambda inverted elementwise.  A zero eigenvalue produces a
division-by-zero entry (inf under numpy, 0⁻¹ = 0 in the rational
embedding) rather than a SingularMatrixError. -/
theorem RDInvert_formula (eigVals : List ℚ) (eigVecs : Mat) (hsq : SquareMat eigVecs)
    (hlen : eigVecs.length = eigVals.length) (i j : ℕ) (hi : i < eigVals.length)
    (hj : j < eigVals.length) :
    (RDInvert eigVals eigVecs).length = eigVals.length ∧
      entry (RDInvert eigVals eigVecs) i j
        = ∑ k ∈ Finset.range eigVals.length,
            entry eigVecs i k * (eigVals.getD k 0)⁻¹ * entry eigVecs j k := by
  set n := eigVals.length with hn
  have hnpos : 0 < n := by omega
  have hVpos : 0 < eigVecs.length := by omega
  have hhead : (eigVecs.headD []).length = n := by
    rw [headD_length_of_square eigVecs hsq hVpos, hlen]
  set D : Mat := mkMat n fun a b => if a = b then (eigVals.getD a 0)⁻¹ else 0 with hD
  have hrd : RDInvert eigVals eigVecs = matMul (matMul eigVecs D) (transposeM eigVecs) := rfl
  have hlenD : D.length = n := length_mkMat n _
  have hheadD : (D.headD []).length = n := by
    rw [hD]
    unfold mkMat
    rw [headD_map_range n _ [] hnpos]
    simp
  have hlenVt : (transposeM eigVecs).length = n := by
    rw [length_transposeM, hhead]
  have hheadVt : ((transposeM eigVecs).headD []).length = n := by
    unfold transposeM
    rw [hhead, headD_map_range n _ [] hnpos]
    simp [hlen]
  constructor
  · rw [hrd, length_matMul, length_matMul, hlen]
  · rw [hrd]
    rw [entry_matMul (matMul eigVecs D) (transposeM eigVecs) i j
      (by rw [length_matMul, hlen]; exact hi) (by rw [hheadVt]; exact hj)]
    rw [hlenVt]
    apply Finset.sum_congr rfl
    intro k hk
    have hkn : k < n := Finset.mem_range.mp hk
    have hVD : entry (matMul eigVecs D) i k = entry eigVecs i k * (eigVals.getD k 0)⁻¹ := by
      rw [entry_matMul eigVecs D i k (by omega) (by rw [hheadD]; exact hkn), hlenD]
      have hsum : ∀ m ∈ Finset.range n,
          entry eigVecs i m * entry D m k
            = if m = k then entry eigVecs i m * (eigVals.getD m 0)⁻¹ else 0 := by
        intro m hm
        rw [hD, entry_mkMat n _ m k (Finset.mem_range.mp hm) hkn]
        by_cases hmk : m = k
        · rw [if_pos hmk, if_pos hmk]
        · rw [if_neg hmk, if_neg hmk, mul_zero]
      rw [Finset.sum_congr rfl hsum, Finset.sum_ite_eq' (Finset.range n) k
        (fun m => entry eigVecs i m * (eigVals.getD m 0)⁻¹), if_pos hk]
    rw [hVD, entry_transposeM eigVecs k j (by rw [hhead]; exact hkn) (by omega)]

/-- Witness for the amended claim C4 at a 2 by 2 rotation-like eigenbasis
with non-zero eigenvalues. -/
theorem RDInvert_formula_witness :
    (SquareMat [[(1 : ℚ), 0], [0, 1]] ∧ ([[(1 : ℚ), 0], [0, 1]] : Mat).length = 2
        ∧ (0 : ℕ) < 2 ∧ (1 : ℕ) < 2) ∧
      ((RDInvert [(2 : ℚ), 4] [[(1 : ℚ), 0], [0, 1]]).length = [(2 : ℚ), 4].length ∧
        entry (RDInvert [(2 : ℚ), 4] [[(1 : ℚ), 0], [0, 1]]) 0 1
          = ∑ k ∈ Finset.range [(2 : ℚ), 4].length,
              entry [[(1 : ℚ), 0], [0, 1]] 0 k * ([(2 : ℚ), 4].getD k 0)⁻¹
                * entry [[(1 : ℚ), 0], [0, 1]] 1 k) :=
  ⟨⟨by decide, by decide, by decide, by decide⟩,
    RDInvert_formula [(2 : ℚ), 4] [[(1 : ℚ), 0], [0, 1]] (by decide) (by decide) 0 1
      (by decide) (by decide)⟩

theorem sum_map_range_nat (f : ℕ → ℕ) (n : ℕ) :
    ((List.range n).map f).sum = ∑ k ∈ Finset.range n, f k := by
  induction n with
  | zero => simp
  | succ m ih =>
      rw [List.range_succ, List.map_append, List.sum_append, Finset.sum_range_succ, ih]
      simp

theorem length_symSave (M : Mat) : (symSave M).length = triuOffset M.length M.length := by
  unfold symSave triuOffset
  rw [List.length_flatMap]
  congr 1
  apply List.map_congr_left
  intro i hi
  simp [Function.comp]

theorem two_mul_triuOffset (n : ℕ) : 2 * triuOffset n n = n * (n + 1) := by
  unfold triuOffset
  rw [sum_map_range_nat]
  have h1 : ∑ k ∈ Finset.range n, (n - k) = ∑ k ∈ Finset.range n, ((n - 1 - k) + 1) := by
    apply Finset.sum_congr rfl
    intro k hk
    have := Finset.mem_range.mp hk
    omega
  rw [h1, Finset.sum_range_reflect (fun k => k + 1) n, Finset.sum_add_distrib,
    Finset.sum_const, Finset.card_range, smul_eq_mul, mul_one]
  have hg := Finset.sum_range_id_mul_two n
  have hsplit : n * (n + 1) = n * (n - 1) + 2 * n := by
    cases n with
    | zero => rfl
    | succ m =>
        simp only [Nat.succ_sub_one]
        ring
  linarith

theorem find_triangular (L n : ℕ) (hL : 2 * L = n * (n + 1)) :
    (List.range (L + 1)).find? (fun m => m * (m + 1) == 2 * L) = some n := by
  have hnle : n ≤ L := by nlinarith
  have hsplit : List.range (L + 1)
      = List.range n ++ List.map (fun x => n + x) (List.range (L + 1 - n)) := by
    rw [← List.range_add]
    congr 1
    omega
  rw [hsplit, List.find?_append]
  have h1 : (List.range n).find? (fun m => m * (m + 1) == 2 * L) = none := by
    rw [List.find?_eq_none]
    intro m hm
    have hmn : m < n := List.mem_range.mp hm
    simp only [beq_iff_eq]
    intro hcontra
    have hlt : m * (m + 1) < n * (n + 1) := by nlinarith
    linarith
  rw [h1, Option.none_or]
  have hL1n : L + 1 - n = (L - n) + 1 := by omega
  rw [hL1n, List.range_succ_eq_map, List.map_cons]
  apply List.find?_cons_of_pos
  simp only [beq_iff_eq]
  show (n + 0) * (n + 0 + 1) = 2 * L
  simpa using hL.symm

theorem symSave_getD (M : Mat) (i j : ℕ) (hij : i ≤ j) (hj : j < M.length) :
    (symSave M).getD (triuPos M.length i j) 0 = entry M i j := by
  have hsplit : List.range M.length
      = List.range i ++ List.map (fun x => i + x) (List.range (M.length - i)) := by
    rw [← List.range_add]
    congr 1
    omega
  have hsave : symSave M
      = (List.range i).flatMap
          (fun r => (List.range (M.length - r)).map fun k => entry M r (r + k))
        ++ (List.map (fun x => i + x) (List.range (M.length - i))).flatMap
          (fun r => (List.range (M.length - r)).map fun k => entry M r (r + k)) := by
    unfold symSave
    rw [hsplit, List.flatMap_append]
  have hlen1 : ((List.range i).flatMap
      (fun r => (List.range (M.length - r)).map fun k => entry M r (r + k))).length
      = triuOffset M.length i := by
    rw [List.length_flatMap]
    unfold triuOffset
    congr 1
    apply List.map_congr_left
    intro k hk
    simp [Function.comp]
  rw [hsave]
  unfold triuPos
  rw [← hlen1]
  rw [List.getD_append_right _ _ _ _ (by omega)]
  have hidx : ((List.range i).flatMap
      (fun r => (List.range (M.length - r)).map fun k => entry M r (r + k))).length
      + (j - i)
      - ((List.range i).flatMap
          (fun r => (List.range (M.length - r)).map fun k => entry M r (r + k))).length
      = j - i := by omega
  rw [hidx]
  have h2 : M.length - i = (M.length - i - 1) + 1 := by omega
  rw [h2, List.range_succ_eq_map, List.map_cons, List.flatMap_cons]
  rw [List.getD_append _ _ _ _ (by simp; omega)]
  show ((List.range (M.length - (i + 0))).map fun k => entry M (i + 0) ((i + 0) + k)).getD
      (j - i) 0 = entry M i j
  simp only [Nat.add_zero]
  rw [getD_map_range (M.length - i) _ (j - i) 0 (by omega)]
  congr 1
  omega

/-- Claim C2: decoding the encoding is the identity.  For every square
symmetric matrix M, symLoad applied to the compact triangular form
produced by symSave returns M exactly; in rational arithmetic the
diagonal reconstruction a + a - a of line 67 is the identity (as it also
is, bit for bit, for finite IEEE doubles with 2a representable). -/
theorem symLoad_symSave_roundtrip (M : Mat) (hsq : SquareMat M) (hsymm : SymmMat M) :
    symLoad (symSave M) = some M := by
  have h2L : 2 * (symSave M).length = M.length * (M.length + 1) := by
    rw [length_symSave M]
    exact two_mul_triuOffset M.length
  have hfind : (List.range ((symSave M).length + 1)).find?
      (fun m => m * (m + 1) == 2 * (symSave M).length) = some M.length :=
    find_triangular (symSave M).length M.length h2L
  unfold symLoad
  rw [hfind]
  show some (symmetrize (mkMat M.length fun i j =>
      if i ≤ j then (symSave M).getD (triuPos M.length i j) 0 else 0)) = some M
  congr 1
  have hA : ∀ a < M.length, ∀ b < M.length,
      entry (mkMat M.length fun i j =>
          if i ≤ j then (symSave M).getD (triuPos M.length i j) 0 else 0) a b
        = if a ≤ b then entry M a b else 0 := by
    intro a ha b hb
    rw [entry_mkMat _ _ a b ha hb]
    by_cases hab : a ≤ b
    · rw [if_pos hab, if_pos hab, symSave_getD M a b hab hb]
    · rw [if_neg hab, if_neg hab]
  unfold symmetrize
  rw [length_mkMat]
  apply mkMat_eq_of_entries M _ _ hsq rfl
  intro a ha b hb
  rw [hA a ha b hb, hA b hb a ha]
  rcases lt_trichotomy a b with hlt | heq | hgt
  · rw [if_pos (le_of_lt hlt), if_neg (not_le.mpr hlt), if_neg (Nat.ne_of_lt hlt)]
    ring
  · subst heq
    rw [hA a ha a ha]
    simp
  · rw [if_neg (not_le.mpr hgt), if_pos (le_of_lt hgt), if_neg (Ne.symm (Nat.ne_of_lt hgt))]
    rw [hsymm b hb a ha]
    ring

/-- Witness for claim C2 at a concrete symmetric 2 by 2 matrix. -/
theorem symLoad_symSave_roundtrip_witness :
    (SquareMat [[(1 : ℚ), 2], [2, 3]] ∧ SymmMat [[(1 : ℚ), 2], [2, 3]]) ∧
      symLoad (symSave [[(1 : ℚ), 2], [2, 3]]) = some [[(1 : ℚ), 2], [2, 3]] :=
  ⟨⟨by decide, by decide⟩,
    symLoad_symSave_roundtrip [[(1 : ℚ), 2], [2, 3]] (by decide) (by decide)⟩
